import Mathlib

/-!
Verification of the log-analysis pipeline: the log-line parser
(`parser.py`), the session transition-graph builder
(`sequence_graph.py`), the successor-tree extractor
(`successor_tree.py`) and the frequency reporter, embedded shallowly.

Modelling conventions:
* Python `str` is Lean `String`; `str.strip()` is `stripChars` /
  `pystrip` below and `ch.isalpha()` is `Char.isAlpha` (they agree on
  the ASCII inputs the log format uses).
* Python dicts keyed by strings are association lists preserving
  insertion order; `collections.Counter` values are association lists
  of `(key, count)` in insertion order, and `Counter.most_common()` is
  a stable descending sort by count (CPython sorts with `reverse=True`,
  which keeps ties in insertion order), modelled by `insertionSort`.
* Python arbitrary-precision `int` is `Int`/`Nat` directly (no overflow).
* A Python function that can raise is embedded in `Except String`.
-/

namespace LogAnalysis

open List

/-- Python `str.strip()` on the character list: drop whitespace from
both ends. -/
def stripChars (l : List Char) : List Char :=
  ((l.dropWhile Char.isWhitespace).reverse.dropWhile Char.isWhitespace).reverse

/-- Python `str.strip()` on strings. -/
def pystrip (s : String) : String :=
  (stripChars s.toList).asString

/-- The event dict `{"name": ..., "event_data": ...}` built by
`parse_event` in `src/parser.py`. -/
structure Event where
  name : String
  event_data : String
deriving DecidableEq, Repr

/-- The `Log` record of `src/parser.py` (`Log.__init__`): `timestamp`,
`component_name` verbatim; `pid` is the result of `int(pid)`. -/
structure Log where
  timestamp : String
  component_name : String
  pid : Int
  event : Event
deriving DecidableEq, Repr

/-- The character scan of `parse_event` (`src/parser.py` lines 31-36):
walk the trimmed content; at the first non-alphabetic character stop,
returning the alphabetic prefix (the name) and everything after that
character (the raw payload); if every character is alphabetic the whole
content is the name and the payload is empty. -/
def splitEvent : List Char → List Char × List Char
  | [] => ([], [])
  | ch :: rest =>
    if ch.isAlpha then
      let p := splitEvent rest
      (ch :: p.1, p.2)
    else
      ([], rest)

/-- `parse_event` from `src/parser.py` lines 28-36: trim the content,
split at the first non-alphabetic character (which is dropped), and
trim the payload. -/
def parse_event (content : String) : Event :=
  let c := stripChars content.toList
  let p := splitEvent c
  ⟨p.1.asString, (stripChars p.2).asString⟩

theorem asString_eq_empty_iff (l : List Char) : l.asString = "" ↔ l = [] := by
  constructor
  · intro h
    simpa using congrArg String.data h
  · intro h
    subst h
    rfl

/-- C6 (amended): the event name extracted by `parse_event` is
non-empty iff the trimmed content is non-empty AND its first character
is alphabetic; an initial non-alphabetic character yields an empty name
even when the trimmed content is non-empty. -/
theorem C6_amended_name_nonempty (content : String) :
    (parse_event content).name ≠ "" ↔
      (∃ ch, (stripChars content.toList).head? = some ch ∧ ch.isAlpha = true) := by
  unfold parse_event
  cases hl : stripChars content.toList with
  | nil =>
    simp [splitEvent, asString_eq_empty_iff]
  | cons c rest =>
    by_cases hc : c.isAlpha
    · simp only [splitEvent, hc, if_pos, List.head?_cons, ne_eq, asString_eq_empty_iff]
      constructor
      · intro _
        exact ⟨c, rfl, hc⟩
      · intro _
        exact List.cons_ne_nil _ _
    · simp only [splitEvent, hc, if_neg, List.head?_cons, ne_eq, asString_eq_empty_iff,
        Option.some.injEq]
      constructor
      · intro h
        exact absurd rfl h
      · rintro ⟨ch, rfl, hA⟩
        exact absurd hA hc

/-- C6 counterexample: on content `"1"` the trimmed content is
non-empty yet the extracted event name is empty, refuting the claim
that the name is non-empty whenever the trimmed content is. -/
theorem C6_counterexample :
    (parse_event "1").name = "" ∧ stripChars "1".toList ≠ [] := by
  constructor
  · rfl
  · decide

/-! ### The line parser: `parse_log_file` (`src/parser.py` lines 42-68) -/

/-- Split a character list at the first occurrence of `sep`, returning
the part before and the part after, or `none` when `sep` is absent. -/
def splitFirst (sep : Char) : List Char → Option (List Char × List Char)
  | [] => none
  | c :: rest =>
    if c = sep then some ([], rest)
    else (splitFirst sep rest).map (fun p => (c :: p.1, p.2))

/-- Python `line.split(sep, maxsplit)`: split at most `n` times on
`sep`; the remainder (which may still contain `sep`) is the last part. -/
def splitLimit (sep : Char) : Nat → List Char → List (List Char)
  | 0, l => [l]
  | n + 1, l =>
    match splitFirst sep l with
    | none => [l]
    | some p => p.1 :: splitLimit sep n p.2

/-- The four parts of `line.split("|", 3)` as strings. -/
def splitBar3 (line : String) : List String :=
  (splitLimit '|' 3 line.toList).map List.asString

/-- Python `int(s)` for a decimal string: strip whitespace, optional
sign, then a non-empty run of ASCII digits; `none` models the
`ValueError` raised otherwise. -/
def pythonInt? (s : String) : Option Int :=
  let t := stripChars s.toList
  match t with
  | '-' :: rest =>
    if rest ≠ [] ∧ rest.all Char.isDigit then
      some (-(rest.foldl (fun n c => 10 * n + (c.toNat - 48)) 0 : Nat))
    else none
  | '+' :: rest =>
    if rest ≠ [] ∧ rest.all Char.isDigit then
      some ((rest.foldl (fun n c => 10 * n + (c.toNat - 48)) 0 : Nat))
    else none
  | rest =>
    if rest ≠ [] ∧ rest.all Char.isDigit then
      some ((rest.foldl (fun n c => 10 * n + (c.toNat - 48)) 0 : Nat))
    else none

/-- Parser state: the `logs` dict (component name to its record list,
insertion-ordered) and the running `total`. -/
abbrev ParseState := List (String × List Log) × Nat

/-- Append `g` to the record list of component `c` in the dict,
creating the entry at the end when `c` is new — the behaviour of
`logs[component].append(log)` after `if component not in logs`. -/
def appendAt : List (String × List Log) → String → Log → List (String × List Log)
  | [], c, g => [(c, [g])]
  | (k, v) :: rest, c, g =>
    if k = c then (k, v ++ [g]) :: rest
    else (k, v) :: appendAt rest c g

/-- One iteration of the loop body of `parse_log_file`
(`src/parser.py` lines 48-66): trim the line, skip it when blank or
when it does not split into exactly four parts, otherwise build the
`Log`; `int(pid_str)` failing raises (`Except.error`), it is not
caught. -/
def parseStep (st : ParseState) (rawLine : String) : Except String ParseState :=
  let line := pystrip rawLine
  if line = "" then .ok st
  else
    let parts := splitBar3 line
    if parts.length ≠ 4 then .ok st
    else
      let date_str := parts.getD 0 ""
      let component := parts.getD 1 ""
      let pid_str := parts.getD 2 ""
      let content := parts.getD 3 ""
      match pythonInt? pid_str with
      | none => .error "ValueError: invalid literal for int()"
      | some pid =>
        .ok (appendAt st.1 component ⟨date_str, component, pid, parse_event content⟩,
             st.2 + 1)

/-- `parse_log_file` over the file's lines (`src/parser.py` lines
42-68): fold the loop body over every line, starting from the empty
dict and a zero total, returning `(logs, total)`. -/
def parse_log_file (lines : List String) : Except String ParseState :=
  lines.foldlM parseStep ([], 0)

/-- A line the loop body skips: blank after trimming, or not splitting
into exactly four `|`-separated parts. -/
def skippedLine (line : String) : Prop :=
  pystrip line = "" ∨ (splitBar3 (pystrip line)).length ≠ 4

/-- A line that reaches the `int(pid_str)` conversion and fails it:
non-blank, exactly four parts, third part not an integer literal. -/
def badPidLine (line : String) : Prop :=
  pystrip line ≠ "" ∧ (splitBar3 (pystrip line)).length = 4 ∧
    pythonInt? ((splitBar3 (pystrip line)).getD 2 "") = none

theorem parseStep_skip (st : ParseState) (line : String) (h : skippedLine line) :
    parseStep st line = .ok st := by
  by_cases hb : pystrip line = ""
  · simp only [parseStep, if_pos hb]
  · rcases h with h | h
    · exact absurd h hb
    · simp only [parseStep]
      rw [if_neg hb, if_pos h]

theorem parseStep_badPid (st : ParseState) (line : String) (h : badPidLine line) :
    parseStep st line = .error "ValueError: invalid literal for int()" := by
  obtain ⟨h1, h2, h3⟩ := h
  simp only [parseStep]
  rw [if_neg h1, if_neg (not_not_intro h2), h3]

theorem foldlM_except_skip {σ α : Type} (f : σ → α → Except String σ) (x : α)
    (hx : ∀ s, f s x = .ok s) :
    ∀ (l₁ l₂ : List α) (st : σ),
      List.foldlM f st (l₁ ++ x :: l₂) = List.foldlM f st (l₁ ++ l₂)
  | [], l₂, st => by
    simp only [List.nil_append, List.foldlM_cons, hx st]
    rfl
  | a :: l₁, l₂, st => by
    simp only [List.cons_append, List.foldlM_cons]
    cases h : f st a with
    | error e => rfl
    | ok s =>
      show List.foldlM f s (l₁ ++ x :: l₂) = List.foldlM f s (l₁ ++ l₂)
      exact foldlM_except_skip f x hx l₁ l₂ s

/-- C7: a line that is blank after trimming, or does not split on `|`
into exactly four fields, is silently excluded: the loop body leaves
the state unchanged with no error, and the parse of any file is
unchanged by the line's presence. -/
theorem C7_skipped_lines (line : String) (h : skippedLine line) :
    (∀ st, parseStep st line = .ok st) ∧
      ∀ l₁ l₂ : List String,
        parse_log_file (l₁ ++ line :: l₂) = parse_log_file (l₁ ++ l₂) := by
  refine ⟨fun st => parseStep_skip st line h, fun l₁ l₂ => ?_⟩
  exact foldlM_except_skip parseStep line (fun st => parseStep_skip st line h) l₁ l₂ ([], 0)

theorem C7_witness :
    parse_log_file ["20221001-10:00:00:000|Comp|111|onStep 1", "a|b",
        "20221001-10:00:01:000|Comp|111|onStop 0"] =
      parse_log_file ["20221001-10:00:00:000|Comp|111|onStep 1",
        "20221001-10:00:01:000|Comp|111|onStop 0"] :=
  (C7_skipped_lines "a|b" (Or.inr (by decide))).2
    ["20221001-10:00:00:000|Comp|111|onStep 1"]
    ["20221001-10:00:01:000|Comp|111|onStop 0"]

theorem parseStep_some (st : ParseState) (a : String) (pid : Int)
    (h1 : pystrip a ≠ "") (h2 : (splitBar3 (pystrip a)).length = 4)
    (hp : pythonInt? ((splitBar3 (pystrip a)).getD 2 "") = some pid) :
    parseStep st a =
      .ok (appendAt st.1 ((splitBar3 (pystrip a)).getD 1 "")
            ⟨(splitBar3 (pystrip a)).getD 0 "", (splitBar3 (pystrip a)).getD 1 "", pid,
              parse_event ((splitBar3 (pystrip a)).getD 3 "")⟩,
           st.2 + 1) := by
  simp only [parseStep]
  rw [if_neg h1, if_neg (not_not_intro h2), hp]

theorem parseStep_error_msg (st : ParseState) (a : String) (e : String)
    (h : parseStep st a = .error e) : e = "ValueError: invalid literal for int()" := by
  by_cases h1 : pystrip a = ""
  · rw [parseStep_skip st a (Or.inl h1)] at h
    exact absurd h (by simp)
  by_cases h2 : (splitBar3 (pystrip a)).length = 4
  · cases hp : pythonInt? ((splitBar3 (pystrip a)).getD 2 "") with
    | none =>
      rw [parseStep_badPid st a ⟨h1, h2, hp⟩] at h
      exact (by simpa using h : _ = e).symm
    | some pid =>
      rw [parseStep_some st a pid h1 h2 hp] at h
      exact absurd h (by simp)
  · rw [parseStep_skip st a (Or.inr h2)] at h
    exact absurd h (by simp)

theorem foldlM_badPid (x : String) (hx : badPidLine x) :
    ∀ (lines : List String) (st : ParseState), x ∈ lines →
      List.foldlM parseStep st lines = .error "ValueError: invalid literal for int()"
  | [], _, hmem => absurd hmem (List.not_mem_nil x)
  | a :: rest, st, hmem => by
    simp only [List.foldlM_cons]
    by_cases ha : a = x
    · subst ha
      rw [parseStep_badPid st a hx]
      rfl
    · have hrest : x ∈ rest := by
        rcases List.mem_cons.mp hmem with h | h
        · exact absurd h.symm ha
        · exact h
      cases h : parseStep st a with
      | error e =>
        rw [parseStep_error_msg st a e h]
        rfl
      | ok s =>
        show List.foldlM parseStep s rest = _
        exact foldlM_badPid x hx rest s hrest

/-- C2 (amended): a line whose pid field does not parse as an integer
is not discarded — the `int(pid)` conversion in `Log.__init__` is not
guarded, so the error propagates out of `parse_log_file` and the whole
parse aborts. -/
theorem C2_amended_bad_pid_aborts (lines : List String) (line : String)
    (hmem : line ∈ lines) (hbad : badPidLine line) :
    parse_log_file lines = .error "ValueError: invalid literal for int()" :=
  foldlM_badPid line hbad lines ([], 0) hmem

/-- C2 counterexample: a file with one bad-pid line followed by a
well-formed line yields an error — the bad record is not silently
discarded and the remaining lines are not parsed, refuting the claim. -/
theorem C2_counterexample :
    parse_log_file ["20221001-10:00:00:000|Comp|abc|onStep 1",
        "20221001-10:00:01:000|Comp|111|onStop 0"] =
      .error "ValueError: invalid literal for int()" := by
  rfl

theorem C2_witness :
    parse_log_file ["20221001-10:00:02:000|Comp|x9|onStep 2"] =
      .error "ValueError: invalid literal for int()" :=
  C2_amended_bad_pid_aborts _ "20221001-10:00:02:000|Comp|x9|onStep 2"
    (List.mem_singleton.mpr rfl) (by refine ⟨by decide, by decide, by decide⟩)

/-! ### The frequency reporter: `print_frequencies` (`src/parser.py` lines 17-26) -/

/-- Python's lexicographic `<=` on strings, by code point, as an
executable comparison on character lists. -/
def lexLeb : List Char → List Char → Bool
  | [], _ => true
  | _ :: _, [] => false
  | a :: as, b :: bs => a.toNat < b.toNat || (a.toNat = b.toNat && lexLeb as bs)

/-- Python `a <= b` on strings. -/
def pyStrLe (a b : String) : Prop :=
  lexLeb a.toList b.toList = true

instance : DecidableRel pyStrLe := fun a b =>
  decidable_of_iff (lexLeb a.toList b.toList = true) Iff.rfl

theorem lexLeb_total : ∀ a b : List Char, lexLeb a b = true ∨ lexLeb b a = true
  | [], _ => Or.inl rfl
  | _ :: _, [] => Or.inr rfl
  | a :: as, b :: bs => by
    simp only [lexLeb, Bool.or_eq_true, Bool.and_eq_true, decide_eq_true_eq]
    rcases Nat.lt_trichotomy a.toNat b.toNat with h | h | h
    · exact Or.inl (Or.inl h)
    · rcases lexLeb_total as bs with h2 | h2
      · exact Or.inl (Or.inr ⟨h, h2⟩)
      · exact Or.inr (Or.inr ⟨h.symm, h2⟩)
    · exact Or.inr (Or.inl h)

theorem lexLeb_trans :
    ∀ a b c : List Char, lexLeb a b = true → lexLeb b c = true → lexLeb a c = true
  | [], _, _, _, _ => rfl
  | a :: as, [], c, h1, _ => by simp [lexLeb] at h1
  | a :: as, b :: bs, [], _, h2 => by simp [lexLeb] at h2
  | a :: as, b :: bs, c :: cs, h1, h2 => by
    simp only [lexLeb, Bool.or_eq_true, Bool.and_eq_true, decide_eq_true_eq] at h1 h2 ⊢
    rcases h1 with h1 | ⟨h1e, h1r⟩ <;> rcases h2 with h2 | ⟨h2e, h2r⟩
    · exact Or.inl (h1.trans h2)
    · exact Or.inl (h2e ▸ h1)
    · exact Or.inl (h1e ▸ h2)
    · exact Or.inr ⟨h1e.trans h2e, lexLeb_trans as bs cs h1r h2r⟩

/-- The lexicographic order Python's `sorted` uses on the
`(count, key)` tuples accumulated by `print_frequencies`. -/
def tupLe (a b : Nat × String) : Prop :=
  a.1 < b.1 ∨ (a.1 = b.1 ∧ pyStrLe a.2 b.2)

instance : DecidableRel tupLe := fun a b =>
  decidable_of_iff (a.1 < b.1 ∨ (a.1 = b.1 ∧ pyStrLe a.2 b.2)) Iff.rfl

instance : IsTotal (Nat × String) tupLe where
  total a b := by
    rcases lt_trichotomy a.1 b.1 with h | h | h
    · exact Or.inl (Or.inl h)
    · rcases lexLeb_total a.2.toList b.2.toList with h2 | h2
      · exact Or.inl (Or.inr ⟨h, h2⟩)
      · exact Or.inr (Or.inr ⟨h.symm, h2⟩)
    · exact Or.inr (Or.inl h)

instance : IsTrans (Nat × String) tupLe where
  trans a b c hab hbc := by
    rcases hab with h1 | ⟨h1e, h1le⟩ <;> rcases hbc with h2 | ⟨h2e, h2le⟩
    · exact Or.inl (h1.trans h2)
    · exact Or.inl (lt_of_lt_of_le h1 (le_of_eq h2e))
    · exact Or.inl (lt_of_le_of_lt (le_of_eq h1e) h2)
    · exact Or.inr ⟨h1e.trans h2e, lexLeb_trans _ _ _ h1le h2le⟩

/-- `print_frequencies` from `src/parser.py` lines 17-26, modelled as
the list of `(key, count, percentage)` entries it prints: collect
`(len(v), k)` tuples and the grand total, sort ascending
(lexicographically on the tuples) and reverse, then emit
`v / sum * 100` percentages. When the mapping is non-empty but the
grand total is 0, the first loop iteration's `v/sum*100` raises
`ZeroDivisionError` (`Except.error`) and nothing is produced. -/
def print_frequencies {α : Type} (d : List (String × List α)) :
    Except String (List (String × Nat × ℚ)) :=
  let arr := d.map (fun kv => (kv.2.length, kv.1))
  let s : Nat := (d.map (fun kv => kv.2.length)).sum
  if d.isEmpty = false ∧ s = 0 then .error "ZeroDivisionError: division by zero"
  else
    .ok (((List.insertionSort tupLe arr).reverse).map
      (fun vk => (vk.2, vk.1, (vk.1 : ℚ) / (s : ℚ) * 100)))

/-- C8 counterexample: two keys with equal counts come out ordered by
key *descending* (`sorted(arr)[::-1]` reverses the ascending tie
order), refuting the claimed ascending tie-break. -/
theorem C8_counterexample :
    (print_frequencies [("a", [0]), ("b", [0])]).map (List.map Prod.fst) =
        Except.ok ["b", "a"] ∧
      (["b", "a"] : List String) ≠ ["a", "b"] := by
  constructor
  · rfl
  · decide

/-- C8 (amended): when the mapping is non-empty but the grand total of
the counts is 0, the reporter raises `ZeroDivisionError` and produces
no entries; otherwise its entries are ordered by descending count with
equal counts ordered by key *descending* (the code sorts the
`(count, key)` tuples ascending and reverses, which flips the tie
order too), and the entries are a permutation of the input keys with
each percentage equal to `count / grand_total * 100`. -/
theorem C8_amended_ordering {α : Type} (d : List (String × List α)) :
    (d ≠ [] ∧ (d.map (fun kv => kv.2.length)).sum = 0 →
        print_frequencies d = .error "ZeroDivisionError: division by zero") ∧
      ∀ es, print_frequencies d = .ok es →
        es.Pairwise
            (fun e1 e2 => e2.2.1 < e1.2.1 ∨ (e2.2.1 = e1.2.1 ∧ pyStrLe e2.1 e1.1)) ∧
          es.Perm
            (d.map (fun kv => (kv.1, kv.2.length,
              (kv.2.length : ℚ) / (((d.map (fun kv => kv.2.length)).sum : Nat) : ℚ) * 100))) := by
  constructor
  · intro h
    have hne : d.isEmpty = false := by
      cases d with
      | nil => exact absurd rfl h.1
      | cons x xs => rfl
    simp only [print_frequencies]
    rw [if_pos ⟨hne, h.2⟩]
  · intro es h
    simp only [print_frequencies] at h
    by_cases hc : d.isEmpty = false ∧ (d.map (fun kv => kv.2.length)).sum = 0
    · rw [if_pos hc] at h
      exact absurd h (by simp)
    · rw [if_neg hc] at h
      cases Except.ok.inj h
      constructor
      · show List.Pairwise _ (List.map _ (List.reverse _))
        rw [List.pairwise_map, List.pairwise_reverse]
        have hs := List.sorted_insertionSort tupLe (d.map (fun kv => (kv.2.length, kv.1)))
        exact hs.imp (fun h => h)
      · show List.Perm (List.map _ (List.reverse _)) _
        have p1 := (List.reverse_perm
          (List.insertionSort tupLe (d.map (fun kv => (kv.2.length, kv.1))))).trans
          (List.perm_insertionSort tupLe (d.map (fun kv => (kv.2.length, kv.1))))
        refine (p1.map _).trans ?_
        rw [List.map_map]
        rfl

theorem C8_witness :
    print_frequencies [("a", ([] : List Nat))] =
        .error "ZeroDivisionError: division by zero" ∧
      (([("b", 1, ((1 : Nat) : ℚ) / ((2 : Nat) : ℚ) * 100),
          ("a", 1, ((1 : Nat) : ℚ) / ((2 : Nat) : ℚ) * 100)] : List (String × Nat × ℚ)).Pairwise
          (fun e1 e2 => e2.2.1 < e1.2.1 ∨ (e2.2.1 = e1.2.1 ∧ pyStrLe e2.1 e1.1)) ∧
        ([("b", 1, ((1 : Nat) : ℚ) / ((2 : Nat) : ℚ) * 100),
            ("a", 1, ((1 : Nat) : ℚ) / ((2 : Nat) : ℚ) * 100)] : List (String × Nat × ℚ)).Perm
          ([("a", [(0 : Nat)]), ("b", [0])].map (fun kv => (kv.1, kv.2.length,
            (kv.2.length : ℚ) /
              ((([("a", [(0 : Nat)]), ("b", [0])].map (fun kv => kv.2.length)).sum : Nat) : ℚ) *
              100)))) :=
  ⟨(C8_amended_ordering [("a", ([] : List Nat))]).1 ⟨by decide, rfl⟩,
    (C8_amended_ordering [("a", [(0 : Nat)]), ("b", [0])]).2
      [("b", 1, ((1 : Nat) : ℚ) / ((2 : Nat) : ℚ) * 100),
        ("a", 1, ((1 : Nat) : ℚ) / ((2 : Nat) : ℚ) * 100)] rfl⟩

/-- The number of records stored in the `logs` dict. -/
def sumLens (l : List (String × List Log)) : Nat :=
  (l.map (fun kv => kv.2.length)).sum

theorem sumLens_appendAt (l : List (String × List Log)) (c : String) (g : Log) :
    sumLens (appendAt l c g) = sumLens l + 1 := by
  induction l with
  | nil => simp [appendAt, sumLens]
  | cons kv rest ih =>
    by_cases h : kv.1 = c
    · simp [appendAt, h, sumLens]
      omega
    · simp only [appendAt]
      rw [if_neg ?_]
      · simp only [sumLens, List.map_cons, List.sum_cons] at ih ⊢
        omega
      · exact h

theorem parseStep_inv (st : ParseState) (a : String) (s : ParseState)
    (hinv : st.2 = sumLens st.1) (h : parseStep st a = .ok s) :
    s.2 = sumLens s.1 := by
  by_cases h1 : pystrip a = ""
  · rw [parseStep_skip st a (Or.inl h1)] at h
    cases h
    exact hinv
  by_cases h2 : (splitBar3 (pystrip a)).length = 4
  · cases hp : pythonInt? ((splitBar3 (pystrip a)).getD 2 "") with
    | none =>
      rw [parseStep_badPid st a ⟨h1, h2, hp⟩] at h
      exact absurd h (by simp)
    | some pid =>
      rw [parseStep_some st a pid h1 h2 hp] at h
      cases h
      simp [sumLens_appendAt, hinv]
  · rw [parseStep_skip st a (Or.inr h2)] at h
    cases h
    exact hinv

theorem foldlM_inv :
    ∀ (lines : List String) (st : ParseState), st.2 = sumLens st.1 →
      ∀ s : ParseState, List.foldlM parseStep st lines = .ok s → s.2 = sumLens s.1
  | [], st, hinv, s, h => by
    rw [List.foldlM_nil] at h
    cases Except.ok.inj (h : Except.ok st = Except.ok s)
    exact hinv
  | a :: rest, st, hinv, s, h => by
    rw [List.foldlM_cons] at h
    cases ha : parseStep st a with
    | error e =>
      rw [ha] at h
      exact absurd h (by simp [Bind.bind, Except.bind])
    | ok s' =>
      rw [ha] at h
      exact foldlM_inv rest s' (parseStep_inv st a s' hinv ha) s h

/-- C10: whenever `parse_log_file` returns, the returned `total` equals
the number of records actually stored across the per-component lists. -/
theorem C10_total_consistent (lines : List String) (logs : List (String × List Log))
    (total : Nat) (h : parse_log_file lines = .ok (logs, total)) :
    total = sumLens logs :=
  foldlM_inv lines ([], 0) rfl (logs, total) h

theorem C10_witness :
    (2 : Nat) = sumLens [("Comp",
      [⟨"20221001-10:00:00:000", "Comp", 111, ⟨"onStep", "1"⟩⟩,
       ⟨"20221001-10:00:01:000", "Comp", 111, ⟨"onStop", "0"⟩⟩])] :=
  C10_total_consistent
    ["20221001-10:00:00:000|Comp|111|onStep 1",
     "20221001-10:00:01:000|Comp|111|onStop 0"]
    [("Comp",
      [⟨"20221001-10:00:00:000", "Comp", 111, ⟨"onStep", "1"⟩⟩,
       ⟨"20221001-10:00:01:000", "Comp", 111, ⟨"onStop", "0"⟩⟩])]
    2 (by rfl)

/-! ### The successor tree: `build_successor_tree` (`src/successor_tree.py`) -/

/-- A transition graph node's successor `Counter`, as its association
list of `(destination, count)` pairs in insertion order; a name absent
from the graph maps to the empty list (`graph.get(node, Counter())`). -/
abbrev Graph := String → List (String × Nat)

/-- `Counter.most_common()`: sort by count descending; CPython sorts
with `reverse=True`, which keeps equal counts in insertion order, so
this is the stable descending insertion sort. -/
def mostCommon (l : List (String × Nat)) : List (String × Nat) :=
  List.insertionSort (fun a b : String × Nat => b.2 ≤ a.2) l

/-- The tree node dict `{"name", "count", "children"}` built by
`build_successor_tree`. -/
inductive SuccTree where
  | node (name : String) (count : Option Nat) (children : List SuccTree)

def SuccTree.name : SuccTree → String
  | .node n _ _ => n

def SuccTree.count : SuccTree → Option Nat
  | .node _ c _ => c

def SuccTree.children : SuccTree → List SuccTree
  | .node _ _ ch => ch

/-- The `qualified` list of `_recurse` (`src/successor_tree.py` lines
33-37): the most-common successors with count at least `threshold`
whose name is not on the current path's visited set. -/
def qualifiedList (g : Graph) (threshold : Nat) (node : String)
    (visited : List String) : List (String × Nat) :=
  (mostCommon (g node)).filter (fun p => decide (threshold ≤ p.2 ∧ p.1 ∉ visited))

/-- `_recurse` from `src/successor_tree.py` lines 29-45: take the top
`branching` qualified successors as children; recurse with the child
added to the per-path visited set only while `remaining_depth > 1`. -/
def recurse (g : Graph) (threshold branching : Nat) :
    Nat → String → List String → List SuccTree
  | 0, node, visited =>
    ((qualifiedList g threshold node visited).take branching).map
      (fun p => .node p.1 (some p.2) [])
  | 1, node, visited =>
    ((qualifiedList g threshold node visited).take branching).map
      (fun p => .node p.1 (some p.2) [])
  | d + 2, node, visited =>
    ((qualifiedList g threshold node visited).take branching).map
      (fun p => .node p.1 (some p.2)
        (recurse g threshold branching (d + 1) p.1 (p.1 :: visited)))

/-- `build_successor_tree` from `src/successor_tree.py` lines 11-51:
the root node carries no count and the visited set starts as
`{root}`. -/
def build_successor_tree (g : Graph) (root : String) (branching : Nat := 2)
    (depth : Nat := 4) (threshold : Nat := 1) : SuccTree :=
  .node root none (recurse g threshold branching depth root [root])

/-- Every node of the tree has at most `b` children. -/
inductive BranchOk (b : Nat) : SuccTree → Prop where
  | mk {n cnt ch} : ch.length ≤ b → (∀ c ∈ ch, BranchOk b c) → BranchOk b (.node n cnt ch)

/-- Every node of the tree lies at depth at most `d` below the tree's
root (`HeightLe d t`: the tree has at most `d` levels of children). -/
inductive HeightLe : Nat → SuccTree → Prop where
  | leaf {d n cnt} : HeightLe d (.node n cnt [])
  | node {d n cnt ch} : (∀ c ∈ ch, HeightLe d c) → HeightLe (d + 1) (.node n cnt ch)

/-- No node's name equals an ancestor name on its own root-to-node
path (`anc` collects the names above the current subtree). -/
inductive NoRepeat : List String → SuccTree → Prop where
  | mk {anc n cnt ch} : n ∉ anc → (∀ c ∈ ch, NoRepeat (n :: anc) c) →
      NoRepeat anc (.node n cnt ch)

theorem of_mem_qualified {g : Graph} {th : Nat} {node : String}
    {visited : List String} {p : String × Nat}
    (hp : p ∈ qualifiedList g th node visited) :
    p ∈ mostCommon (g node) ∧ th ≤ p.2 ∧ p.1 ∉ visited := by
  have h := List.mem_filter.mp hp
  exact ⟨h.1, (of_decide_eq_true h.2).1, (of_decide_eq_true h.2).2⟩

theorem recurse_length (g : Graph) (th b d : Nat) (node : String) (visited : List String) :
    (recurse g th b d node visited).length ≤ b := by
  rcases d with _ | _ | d <;>
    simp only [recurse, List.length_map, List.length_take] <;>
    exact Nat.min_le_left _ _

theorem recurse_branchOk (g : Graph) (th b : Nat) :
    ∀ (d : Nat) (node : String) (visited : List String),
      ∀ t ∈ recurse g th b d node visited, BranchOk b t
  | 0, node, visited, t, ht => by
    obtain ⟨p, _, rfl⟩ := List.mem_map.mp ht
    exact ⟨Nat.zero_le b, fun c hc => absurd hc (List.not_mem_nil c)⟩
  | 1, node, visited, t, ht => by
    obtain ⟨p, _, rfl⟩ := List.mem_map.mp ht
    exact ⟨Nat.zero_le b, fun c hc => absurd hc (List.not_mem_nil c)⟩
  | d + 2, node, visited, t, ht => by
    obtain ⟨p, _, rfl⟩ := List.mem_map.mp ht
    exact ⟨recurse_length g th b (d + 1) p.1 (p.1 :: visited),
      fun c hc => recurse_branchOk g th b (d + 1) p.1 (p.1 :: visited) c hc⟩

theorem recurse_heightLe (g : Graph) (th b : Nat) :
    ∀ (d : Nat) (node : String) (visited : List String),
      ∀ t ∈ recurse g th b d node visited, HeightLe (d - 1) t
  | 0, node, visited, t, ht => by
    obtain ⟨p, _, rfl⟩ := List.mem_map.mp ht
    exact HeightLe.leaf
  | 1, node, visited, t, ht => by
    obtain ⟨p, _, rfl⟩ := List.mem_map.mp ht
    exact HeightLe.leaf
  | d + 2, node, visited, t, ht => by
    obtain ⟨p, _, rfl⟩ := List.mem_map.mp ht
    exact HeightLe.node
      (fun c hc => recurse_heightLe g th b (d + 1) p.1 (p.1 :: visited) c hc)

theorem recurse_noRepeat (g : Graph) (th b : Nat) :
    ∀ (d : Nat) (node : String) (visited anc : List String),
      (∀ x ∈ anc, x ∈ visited) → ∀ t ∈ recurse g th b d node visited, NoRepeat anc t
  | 0, node, visited, anc, hsub, t, ht => by
    obtain ⟨p, hp, rfl⟩ := List.mem_map.mp ht
    have hnv := (of_mem_qualified (List.mem_of_mem_take hp)).2.2
    exact ⟨fun hmem => hnv (hsub _ hmem), fun c hc => absurd hc (List.not_mem_nil c)⟩
  | 1, node, visited, anc, hsub, t, ht => by
    obtain ⟨p, hp, rfl⟩ := List.mem_map.mp ht
    have hnv := (of_mem_qualified (List.mem_of_mem_take hp)).2.2
    exact ⟨fun hmem => hnv (hsub _ hmem), fun c hc => absurd hc (List.not_mem_nil c)⟩
  | d + 2, node, visited, anc, hsub, t, ht => by
    obtain ⟨p, hp, rfl⟩ := List.mem_map.mp ht
    have hnv := (of_mem_qualified (List.mem_of_mem_take hp)).2.2
    refine ⟨fun hmem => hnv (hsub _ hmem), fun c hc => ?_⟩
    refine recurse_noRepeat g th b (d + 1) p.1 (p.1 :: visited) (p.1 :: anc) ?_ c hc
    intro x hx
    rcases List.mem_cons.mp hx with h | h
    · exact List.mem_cons.mpr (Or.inl h)
    · exact List.mem_cons.mpr (Or.inr (hsub x h))

/-- C5: for depth at least 1 (the spec's contract), every tree built by
`build_successor_tree` has at most `branching` children per node, every
node at depth at most `depth` from the root, and no event name repeated
along any root-to-node path. -/
theorem C5_tree_invariants (g : Graph) (root : String) (branching depth threshold : Nat)
    (h : 1 ≤ depth) :
    BranchOk branching (build_successor_tree g root branching depth threshold) ∧
      HeightLe depth (build_successor_tree g root branching depth threshold) ∧
      NoRepeat [] (build_successor_tree g root branching depth threshold) := by
  refine ⟨⟨recurse_length g threshold branching depth root [root],
    fun c hc => recurse_branchOk g threshold branching depth root [root] c hc⟩, ?_, ?_⟩
  · have hd : (depth - 1) + 1 = depth := by omega
    have h2 : HeightLe ((depth - 1) + 1)
        (build_successor_tree g root branching depth threshold) :=
      HeightLe.node
        (fun c hc => recurse_heightLe g threshold branching depth root [root] c hc)
    rwa [hd] at h2
  · exact ⟨List.not_mem_nil root,
      fun c hc => recurse_noRepeat g threshold branching depth root [root] [root]
        (fun x hx => hx) c hc⟩

theorem C5_witness :
    BranchOk 2 (build_successor_tree
        (fun s => if s = "a" then [("b", 2), ("c", 1)] else []) "a" 2 4 1) ∧
      HeightLe 4 (build_successor_tree
        (fun s => if s = "a" then [("b", 2), ("c", 1)] else []) "a" 2 4 1) ∧
      NoRepeat [] (build_successor_tree
        (fun s => if s = "a" then [("b", 2), ("c", 1)] else []) "a" 2 4 1) :=
  C5_tree_invariants (fun s => if s = "a" then [("b", 2), ("c", 1)] else [])
    "a" 2 4 1 (by decide)

/-- Modelled from the spec: the tree extractor in `src/successor_tree.py`
takes no `relative_threshold` (and no `inverted` flag), so the spec's
non-inverted qualification rule (§4.4) exists only in the spec:
a candidate qualifies iff `cnt >= threshold` and
`cnt / total >= relative_threshold`. -/
def specQualifiedNonInverted (cnt total threshold : Nat) (rel : ℚ) : Prop :=
  threshold ≤ cnt ∧ rel ≤ (cnt : ℚ) / (total : ℚ)

/-- Modelled from the spec: the inverted qualification rule of §4.4,
absent from `src/successor_tree.py`: a candidate qualifies iff
`cnt < threshold` and `cnt / total < relative_threshold`, both strict. -/
def specQualifiedInverted (cnt total threshold : Nat) (rel : ℚ) : Prop :=
  cnt < threshold ∧ (cnt : ℚ) / (total : ℚ) < rel

/-- C3: the non-inverted and inverted qualified sets are disjoint, and
both boundary cases (`count = threshold`, `ratio = relative_threshold`)
fail the inverted rule, so a boundary candidate can qualify only in
non-inverted mode. -/
theorem C3_inversion_disjoint (cnt total threshold : Nat) (rel : ℚ) :
    (specQualifiedNonInverted cnt total threshold rel →
        ¬ specQualifiedInverted cnt total threshold rel) ∧
      (cnt = threshold → ¬ specQualifiedInverted cnt total threshold rel) ∧
      ((cnt : ℚ) / (total : ℚ) = rel → ¬ specQualifiedInverted cnt total threshold rel) := by
  refine ⟨fun hq hi => ?_, fun he hi => ?_, fun hr hi => ?_⟩
  · exact absurd hq.1 (Nat.not_le.mpr hi.1)
  · exact absurd hi.1 (by omega)
  · exact absurd hi.2 (by rw [hr]; exact lt_irrefl rel)

theorem C3_witness : ¬ specQualifiedInverted 2 4 2 (1 / 2) :=
  (C3_inversion_disjoint 2 4 2 (1 / 2)).2.1 rfl

theorem mem_qualified_iff (g : Graph) (th : Nat) (node : String)
    (visited : List String) (c : String) (cnt : Nat) :
    (c, cnt) ∈ qualifiedList g th node visited ↔
      ((c, cnt) ∈ mostCommon (g node) ∧ th ≤ cnt ∧ c ∉ visited) := by
  simp [qualifiedList, List.mem_filter]

/-- C1 (amended): in each node of the tree, a candidate `(c, cnt)` is
qualified iff `cnt >= threshold` and `c` is not on the per-path visited
set — there is no relative-frequency condition (the code has no
`relative_threshold` parameter) — and the children are exactly the
first `branching` qualified candidates. -/
theorem C1_amended_qualification (g : Graph) (threshold : Nat) (node : String)
    (visited : List String) :
    (∀ c cnt, (c, cnt) ∈ qualifiedList g threshold node visited ↔
        ((c, cnt) ∈ mostCommon (g node) ∧ threshold ≤ cnt ∧ c ∉ visited)) ∧
      ∀ branching d,
        (recurse g threshold branching d node visited).map
            (fun t => (t.name, t.count)) =
          ((qualifiedList g threshold node visited).take branching).map
            (fun p => (p.1, some p.2)) := by
  refine ⟨fun c cnt => mem_qualified_iff g threshold node visited c cnt, fun b d => ?_⟩
  rcases d with _ | _ | d <;> · rw [recurse, List.map_map]; rfl

/-- C1 counterexample: with the graph `r -> {b: 5, a: 1}`, threshold 1,
branching 2, depth 4 and relative threshold 1/2, the candidate
`(a, 1)` has relative share 1/6 < 1/2, yet it becomes a child of the
root — the code applies no relative-threshold filter. -/
theorem C1_counterexample :
    build_successor_tree (fun s => if s = "r" then [("b", 5), ("a", 1)] else [])
        "r" 2 4 1 =
      .node "r" none [.node "b" (some 5) [], .node "a" (some 1) []] ∧
      ¬ specQualifiedNonInverted 1 (5 + 1) 1 (1 / 2) := by
  constructor
  · rfl
  · intro h
    have := h.2
    norm_num at this

/-! ### `most_common_sequence` (`src/sequence_graph.py` lines 47-81) -/

/-- The `ranked` list of `most_common_sequence` (line 66): the
most-common successors whose count meets the threshold. -/
def rankedList (g : Graph) (t : Nat) (current : String) : List (String × Nat) :=
  (mostCommon (g current)).filter (fun p => decide (t ≤ p.2))

/-- The `for _ in range(depth)` loop of `most_common_sequence`
(`src/sequence_graph.py` lines 61-79): stop when the current node has
no successors; otherwise pick the first ranked successor not yet
visited, or — when every ranked successor is visited — fall back to
`ranked[0]`; stop when `ranked` is empty. -/
def mcsLoop (g : Graph) (t : Nat) :
    Nat → String → List String → List (String × Option Nat) → List (String × Option Nat)
  | 0, _, _, path => path
  | d + 1, current, visited, path =>
    if g current = [] then path
    else
      match (rankedList g t current).find? (fun p => !(visited.contains p.1)) with
      | some p => mcsLoop g t d p.1 (p.1 :: visited) (path ++ [(p.1, some p.2)])
      | none =>
        match rankedList g t current with
        | [] => path
        | p :: _ => mcsLoop g t d p.1 (p.1 :: visited) (path ++ [(p.1, some p.2)])

/-- `most_common_sequence` from `src/sequence_graph.py` lines 47-81:
the path starts as `[(start_event, None)]` with `start_event`
visited. -/
def most_common_sequence (g : Graph) (start_event : String)
    (depth : Nat := 5) (threshold : Nat := 1) : List (String × Option Nat) :=
  mcsLoop g threshold depth start_event [start_event] [(start_event, none)]

theorem mcsLoop_length (g : Graph) (t : Nat) :
    ∀ (d : Nat) (current : String) (visited : List String)
      (path : List (String × Option Nat)),
      (mcsLoop g t d current visited path).length ≤ path.length + d
  | 0, _, _, path => Nat.le_add_right _ 0
  | d + 1, current, visited, path => by
    rw [mcsLoop]
    by_cases hg : g current = []
    · rw [if_pos hg]
      omega
    rw [if_neg hg]
    split
    · next p _ =>
      have h := mcsLoop_length g t d p.1 (p.1 :: visited) (path ++ [(p.1, some p.2)])
      simp only [List.length_append, List.length_singleton] at h
      exact h.trans (by omega)
    · next _ =>
      split
      · omega
      · next p ps _ =>
        have h := mcsLoop_length g t d p.1 (p.1 :: visited) (path ++ [(p.1, some p.2)])
        simp only [List.length_append, List.length_singleton] at h
        exact h.trans (by omega)

theorem mcsLoop_head (g : Graph) (t : Nat) :
    ∀ (d : Nat) (current : String) (visited : List String)
      (path : List (String × Option Nat)), path ≠ [] →
      (mcsLoop g t d current visited path).head? = path.head?
  | 0, _, _, _, _ => rfl
  | d + 1, current, visited, path, hne => by
    have happ : ∀ x : String × Option Nat, (path ++ [x]).head? = path.head? := by
      intro x
      cases path with
      | nil => exact absurd rfl hne
      | cons a rest => rfl
    rw [mcsLoop]
    by_cases hg : g current = []
    · rw [if_pos hg]
    rw [if_neg hg]
    split
    · next p _ =>
      rw [mcsLoop_head g t d p.1 (p.1 :: visited) (path ++ [(p.1, some p.2)])
        (by simp), happ]
    · next _ =>
      split
      · rfl
      · next p ps _ =>
        rw [mcsLoop_head g t d p.1 (p.1 :: visited) (path ++ [(p.1, some p.2)])
          (by simp), happ]

/-- C9: the path returned by `most_common_sequence` starts with
`(start_event, None)` and has length at most `depth + 1`; when every
ranked successor of the current node is already visited but `ranked`
is non-empty, the loop still appends `ranked[0]`; consequently the
returned path can repeat an event name, as on the two-cycle graph
`a -> b -> a`. -/
theorem C9_path_properties :
    (∀ (g : Graph) (s : String) (d t : Nat),
        (most_common_sequence g s d t).head? = some (s, none) ∧
          (most_common_sequence g s d t).length ≤ d + 1) ∧
      (∀ (g : Graph) (t d : Nat) (current : String) (visited : List String)
          (path : List (String × Option Nat)) (p : String × Nat)
          (ps : List (String × Nat)),
          g current ≠ [] →
          (rankedList g t current).find? (fun q => !(visited.contains q.1)) = none →
          rankedList g t current = p :: ps →
          mcsLoop g t (d + 1) current visited path =
            mcsLoop g t d p.1 (p.1 :: visited) (path ++ [(p.1, some p.2)])) ∧
      most_common_sequence
          (fun s => if s = "a" then [("b", 1)] else if s = "b" then [("a", 1)] else [])
          "a" 2 1 =
        [("a", none), ("b", some 1), ("a", some 1)] := by
  refine ⟨fun g s d t => ⟨?_, ?_⟩, fun g t d current visited path p ps hg hf hr => ?_, ?_⟩
  · exact mcsLoop_head g t d s [s] [(s, none)] (by simp)
  · have h := mcsLoop_length g t d s [s] [(s, none)]
    simp only [List.length_singleton] at h
    exact h.trans (by omega)
  · rw [mcsLoop, if_neg hg, hf, hr]
  · rfl

theorem C9_witness :
    mcsLoop (fun _ => [("a", 1)]) 1 1 "x" ["a"] [("x", none)] =
      mcsLoop (fun _ => [("a", 1)]) 1 0 "a" ["a", "a"] [("x", none), ("a", some 1)] :=
  C9_path_properties.2.1 (fun _ => [("a", 1)]) 1 0 "x" ["a"] [("x", none)] ("a", 1) []
    (by decide) (by decide) (by decide)

/-! ### `build_sequence_graph` (`src/sequence_graph.py` lines 13-44) -/

instance : Inhabited Log := ⟨⟨"", "", 0, ⟨"", ""⟩⟩⟩

/-- Python `l1.timestamp <= l2.timestamp`, the key order of the
per-session sort. -/
def tsLe (x y : Log) : Prop :=
  lexLeb x.timestamp.toList y.timestamp.toList = true

instance : DecidableRel tsLe := fun a b =>
  decidable_of_iff (lexLeb a.timestamp.toList b.timestamp.toList = true) Iff.rfl

instance : IsTotal Log tsLe :=
  ⟨fun a b => lexLeb_total a.timestamp.toList b.timestamp.toList⟩

instance : IsTrans Log tsLe :=
  ⟨fun _ _ _ hab hbc => lexLeb_trans _ _ _ hab hbc⟩

/-- The `sessions[(component, log.pid)].append(log)` loop
(`src/sequence_graph.py` lines 26-29), flattened: every record paired
with its session key `(dict component, pid)`, in iteration order. -/
def sessionEntries (parsed_logs : List (String × List Log)) :
    List ((String × Int) × Log) :=
  parsed_logs.flatMap (fun kv => kv.2.map (fun g => ((kv.1, g.pid), g)))

/-- The session keys in first-occurrence order (`defaultdict` insertion
order). -/
def sessionKeys (parsed_logs : List (String × List Log)) : List (String × Int) :=
  ((sessionEntries parsed_logs).map Prod.fst).dedup

/-- The records appended to session `k`, in append order. -/
def sessionOf (parsed_logs : List (String × List Log)) (k : String × Int) : List Log :=
  ((sessionEntries parsed_logs).filter (fun e => decide (e.1 = k))).map Prod.snd

/-- `sessions[key].sort(key=lambda l: l.timestamp)`
(`src/sequence_graph.py` lines 33-34): Python's stable ascending sort,
modelled by the (stable) insertion sort on the timestamp order. -/
def sortedSession (parsed_logs : List (String × List Log)) (k : String × Int) :
    List Log :=
  List.insertionSort tsLe (sessionOf parsed_logs k)

/-- The event name at index `i` of a session (Python `s[i].event["name"]`,
with indices always in range in the source loop). -/
def nameAt (s : List Log) (i : Nat) : String :=
  (s.getD i default).event.name

/-- The `(src, dst)` pairs visited by the edge loop
(`src/sequence_graph.py` lines 38-42): one pair per index
`i in range(len(session_logs) - window)`. -/
def sessionPairs (s : List Log) (w : Nat) : List (String × String) :=
  (List.range (s.length - w)).map (fun i => (nameAt s i, nameAt s (i + w)))

/-- `graph[src][dst] += 1` on the graph-as-counting-function. -/
def bumpEdge (gr : String → String → Nat) (a b : String) : String → String → Nat :=
  fun x y => if x = a ∧ y = b then gr x y + 1 else gr x y

/-- `build_sequence_graph` from `src/sequence_graph.py` lines 13-44,
as the counting function `graph[src][dst]` (a missing pair reads 0,
matching `defaultdict(Counter)`). -/
def build_sequence_graph (parsed_logs : List (String × List Log)) (w : Nat := 1) :
    String → String → Nat :=
  (sessionKeys parsed_logs).foldl
    (fun gr k =>
      (sessionPairs (sortedSession parsed_logs k) w).foldl
        (fun gr2 e => bumpEdge gr2 e.1 e.2) gr)
    (fun _ _ => 0)

/-- The count the spec's invariant describes for one session: the
number of indices `i` with `i + window` in range such that record `i`
is named `a` and record `i + window` is named `b`. -/
def specEdgeCount (s : List Log) (w : Nat) (a b : String) : Nat :=
  ((List.range (s.length - w)).filter
    (fun i => decide (nameAt s i = a ∧ nameAt s (i + w) = b))).length

theorem lexLeb_refl : ∀ l : List Char, lexLeb l l = true
  | [] => rfl
  | a :: as => by
    simp [lexLeb, lexLeb_refl as]

theorem foldl_bump_count (a b : String) :
    ∀ (es : List (String × String)) (gr : String → String → Nat),
      (es.foldl (fun g2 e => bumpEdge g2 e.1 e.2) gr) a b =
        gr a b + (es.filter (fun e => decide (e.1 = a ∧ e.2 = b))).length
  | [], gr => by simp
  | e :: es, gr => by
    rw [List.foldl_cons, foldl_bump_count a b es, List.filter_cons]
    by_cases he : e.1 = a ∧ e.2 = b
    · rw [if_pos (by simpa using he)]
      have hb : bumpEdge gr e.1 e.2 a b = gr a b + 1 := by
        simp [bumpEdge, he.1, he.2]
      rw [hb, List.length_cons]
      omega
    · rw [if_neg (by simpa using he)]
      have hb : bumpEdge gr e.1 e.2 a b = gr a b := by
        simp only [bumpEdge, ite_eq_right_iff]
        intro hc
        exact absurd ⟨hc.1.symm, hc.2.symm⟩ he
      rw [hb]

theorem foldl_sessions_count (a b : String) (f : (String × Int) → List (String × String)) :
    ∀ (ks : List (String × Int)) (gr : String → String → Nat),
      (ks.foldl (fun g2 k => (f k).foldl (fun g3 e => bumpEdge g3 e.1 e.2) g2) gr) a b =
        gr a b +
          (ks.map (fun k => ((f k).filter (fun e => decide (e.1 = a ∧ e.2 = b))).length)).sum
  | [], gr => by simp
  | k :: ks, gr => by
    rw [List.foldl_cons, foldl_sessions_count a b f ks, foldl_bump_count a b (f k) gr,
      List.map_cons, List.sum_cons]
    omega

theorem sessionPairs_count (s : List Log) (w : Nat) (a b : String) :
    ((sessionPairs s w).filter (fun e => decide (e.1 = a ∧ e.2 = b))).length =
      specEdgeCount s w a b := by
  unfold sessionPairs specEdgeCount
  rw [List.filter_map, List.length_map]
  rfl

theorem filter_ts_orderedInsert (ts : String) (x : Log) :
    ∀ l : List Log,
      (List.orderedInsert tsLe x l).filter (fun u => decide (u.timestamp = ts)) =
        if x.timestamp = ts then
          x :: l.filter (fun u => decide (u.timestamp = ts))
        else l.filter (fun u => decide (u.timestamp = ts))
  | [] => by
    by_cases hx : x.timestamp = ts <;> simp [List.orderedInsert, hx]
  | y :: l => by
    by_cases hx : x.timestamp = ts
    · rw [if_pos hx]
      by_cases hr : tsLe x y
      · rw [List.orderedInsert, if_pos hr]
        simp [List.filter_cons, hx]
      · have hy : ¬ y.timestamp = ts := by
          intro h
          apply hr
          show lexLeb x.timestamp.toList y.timestamp.toList = true
          rw [hx, h]
          exact lexLeb_refl ts.toList
        rw [List.orderedInsert, if_neg hr]
        rw [List.filter_cons, List.filter_cons]
        simp only [hy, hx, decide_eq_true_eq, if_neg, if_pos]
        rw [filter_ts_orderedInsert ts x l, if_pos hx]
        simp [hy]
    · rw [if_neg hx]
      by_cases hr : tsLe x y
      · rw [List.orderedInsert, if_pos hr]
        simp [List.filter_cons, hx]
      · rw [List.orderedInsert, if_neg hr]
        rw [List.filter_cons, List.filter_cons]
        rw [filter_ts_orderedInsert ts x l, if_neg hx]

theorem filter_ts_insertionSort (ts : String) :
    ∀ l : List Log,
      (List.insertionSort tsLe l).filter (fun u => decide (u.timestamp = ts)) =
        l.filter (fun u => decide (u.timestamp = ts))
  | [] => rfl
  | x :: l => by
    simp only [List.insertionSort]
    rw [filter_ts_orderedInsert ts x (List.insertionSort tsLe l),
      List.filter_cons]
    by_cases hx : x.timestamp = ts
    · rw [if_pos hx, filter_ts_insertionSort ts l]
      simp [hx]
    · rw [if_neg hx, filter_ts_insertionSort ts l]
      simp [hx]

theorem mem_sessionOf {pl : List (String × List Log)} {k : String × Int} {x : Log}
    (hx : x ∈ sessionOf pl k) :
    x.pid = k.2 ∧ ∃ v, (k.1, v) ∈ pl ∧ x ∈ v := by
  unfold sessionOf at hx
  obtain ⟨e, he, rfl⟩ := List.mem_map.mp hx
  have hef := List.mem_filter.mp he
  have hk : e.1 = k := of_decide_eq_true hef.2
  obtain ⟨kv, hkv, hmem⟩ := List.mem_flatMap.mp hef.1
  obtain ⟨g, hg, hge⟩ := List.mem_map.mp hmem
  rw [← hge] at hk ⊢
  refine ⟨?_, kv.2, ?_, ?_⟩
  · rw [← hk]
  · rw [show k.1 = kv.1 from by rw [← hk]]
    exact hkv
  · exact hg

theorem specEdgeCount_short (s : List Log) (w : Nat) (a b : String)
    (h : s.length ≤ w) : specEdgeCount s w a b = 0 := by
  unfold specEdgeCount
  rw [Nat.sub_eq_zero_of_le h]
  rfl

/-- C4: for `window >= 1`, the graph built by `build_sequence_graph`
counts, for each edge `(a, b)`, the index pairs `(i, i + window)` with
matching names inside each timestamp-sorted per-`(component, pid)`
session, summed over the sessions; the session lists are sorted by
timestamp, the sort is stable (records with equal timestamps keep
their append order, which is file order), every session record carries
the session's pid and comes from the session's component entry, and a
session with at most `window` records contributes no edges. -/
theorem C4_graph_counts (parsed_logs : List (String × List Log)) (w : Nat)
    (_hw : 1 ≤ w) (a b : String) :
    build_sequence_graph parsed_logs w a b =
      ((sessionKeys parsed_logs).map
        (fun k => specEdgeCount (sortedSession parsed_logs k) w a b)).sum ∧
      (∀ k, (sortedSession parsed_logs k).Sorted tsLe) ∧
      (∀ k ts, (sortedSession parsed_logs k).filter (fun u => decide (u.timestamp = ts)) =
        (sessionOf parsed_logs k).filter (fun u => decide (u.timestamp = ts))) ∧
      (∀ k, ∀ x ∈ sortedSession parsed_logs k,
        x.pid = k.2 ∧ ∃ v, (k.1, v) ∈ parsed_logs ∧ x ∈ v) ∧
      (∀ k, (sortedSession parsed_logs k).length ≤ w →
        specEdgeCount (sortedSession parsed_logs k) w a b = 0) := by
  refine ⟨?_, ?_, ?_, ?_, ?_⟩
  · unfold build_sequence_graph
    rw [foldl_sessions_count a b (fun k => sessionPairs (sortedSession parsed_logs k) w)]
    simp only [sessionPairs_count]
    exact Nat.zero_add _
  · intro k
    exact List.sorted_insertionSort tsLe (sessionOf parsed_logs k)
  · intro k ts
    exact filter_ts_insertionSort ts (sessionOf parsed_logs k)
  · intro k x hx
    exact mem_sessionOf ((List.perm_insertionSort tsLe (sessionOf parsed_logs k)).mem_iff.mp hx)
  · intro k h
    exact specEdgeCount_short _ _ _ _ h

/-- The spec's concrete three-line scenario, already parsed: one
component, one pid, three records. -/
def samplePl : List (String × List Log) :=
  [("Comp",
    [⟨"20221001-10:00:00:000", "Comp", 111, ⟨"onStep", "1"⟩⟩,
     ⟨"20221001-10:00:01:000", "Comp", 111, ⟨"onStop", "0"⟩⟩,
     ⟨"20221001-10:00:02:000", "Comp", 111, ⟨"onStep", "2"⟩⟩])]

theorem C4_witness :
    build_sequence_graph samplePl 1 "onStep" "onStop" =
      ((sessionKeys samplePl).map
        (fun k => specEdgeCount (sortedSession samplePl k) 1 "onStep" "onStop")).sum :=
  (C4_graph_counts samplePl 1 (by decide) "onStep" "onStop").1

end LogAnalysis
